import Mathlib

/-!
Verification of the multiplexing core of a serial-to-TCP bridge
(serial_server.py). The Python classes LineBuf, Client and Serial and
the functions process_serial, process_clients and run are embedded as
pure Lean functions. Byte strings are lists of natural numbers; the
newline byte is 10. External effects (socket recv and send, device read
and write, console output) are modelled as oracle inputs and as output
traces recorded in the state.
-/

namespace SerialLogger

abbrev Bytes := List Nat

/-- Index of the first newline byte in a byte string. This embeds the
Python expression data.find of a newline: the Python result -1 becomes
the none case here. -/
def findNl : Bytes → Option Nat
  | [] => none
  | b :: bs => if b = 10 then some 0 else (findNl bs).map (· + 1)

theorem findNl_eq_none_iff (l : Bytes) : findNl l = none ↔ 10 ∉ l := by
  induction l with
  | nil => simp [findNl]
  | cons b bs ih =>
    constructor
    · intro h hmem
      rcases List.mem_cons.mp hmem with h10 | h10
      · subst h10
        simp [findNl] at h
      · unfold findNl at h
        by_cases hb : b = 10
        · simp [hb] at h
        · rw [if_neg hb] at h
          cases hq : findNl bs with
          | none => exact (ih.mp hq) h10
          | some q => rw [hq] at h; simp at h
    · intro h
      have hb : ¬ b = 10 := fun hx => h (by simp [hx])
      have hbs : 10 ∉ bs := fun hx => h (List.mem_cons_of_mem _ hx)
      unfold findNl
      rw [if_neg hb, ih.mpr hbs]
      rfl

theorem findNl_some_spec {l : Bytes} {p : Nat} (h : findNl l = some p) :
    p < l.length ∧ l.take (p + 1) = l.take p ++ [10] ∧ 10 ∉ l.take p := by
  induction l generalizing p with
  | nil => simp [findNl] at h
  | cons b bs ih =>
    unfold findNl at h
    by_cases hb : b = 10
    · rw [if_pos hb] at h
      injection h with h
      subst h
      subst hb
      simp
    · rw [if_neg hb] at h
      cases hq : findNl bs with
      | none => rw [hq] at h; simp at h
      | some q =>
        rw [hq] at h
        simp only [Option.map_some', Option.some.injEq] at h
        subst h
        obtain ⟨h1, h2, h3⟩ := ih hq
        refine ⟨by simpa using Nat.succ_lt_succ h1, ?_, ?_⟩
        · show (b :: bs).take (q + 1 + 1) = (b :: bs).take (q + 1) ++ [10]
          simp [List.take_succ_cons, h2]
        · show 10 ∉ (b :: bs).take (q + 1)
          simp only [List.take_succ_cons, List.mem_cons]
          rintro (hx | hx)
          · exact hb hx.symm
          · exact h3 hx

/-- The accumulating byte buffer of class LineBuf. The field data is the
full content (getvalue of the BytesIO object) and pos is the stream
cursor of the BytesIO object. -/
structure LineBuf where
  data : Bytes
  pos : Nat
deriving DecidableEq

def LineBuf.init : LineBuf := ⟨[], 0⟩

/-- LineBuf.write: a BytesIO write overwrites length d bytes starting at
the cursor, extending the content as needed, and advances the cursor. -/
def LineBuf.write (b : LineBuf) (d : Bytes) : LineBuf :=
  ⟨b.data.take b.pos ++ d ++ b.data.drop (b.pos + d.length), b.pos + d.length⟩

/-- LineBuf.readline: if the content holds a newline, return the prefix
up to and including the first newline and replace the buffer by a fresh
BytesIO holding the remainder (cursor 0); otherwise return none and
leave the buffer unchanged. -/
def LineBuf.readline (b : LineBuf) : Option Bytes × LineBuf :=
  match findNl b.data with
  | none => (none, b)
  | some p => (some (b.data.take (p + 1)), ⟨b.data.drop (p + 1), 0⟩)

/-- Repeatedly call readline until it returns none, collecting the
returned lines. The Python callers loop with no fuel; the fuel argument
only bounds the recursion and is always chosen large enough (the buffer
length bounds the number of successful readline calls, because every
returned line is nonempty). -/
def takeLinesGo : Nat → LineBuf → List Bytes × LineBuf
  | 0, b => ([], b)
  | fuel + 1, b =>
    match LineBuf.readline b with
    | (none, b2) => ([], b2)
    | (some l, b2) =>
      let r := takeLinesGo fuel b2
      (l :: r.1, r.2)

def takeLines (b : LineBuf) : List Bytes × LineBuf :=
  takeLinesGo b.data.length b

theorem takeLinesGo_spec (fuel : Nat) :
    ∀ b : LineBuf, b.data.count 10 ≤ fuel →
      ((takeLinesGo fuel b).1).flatten ++ ((takeLinesGo fuel b).2).data = b.data ∧
      ((takeLinesGo fuel b).1).length = b.data.count 10 ∧
      (∀ l ∈ (takeLinesGo fuel b).1, l.count 10 = 1 ∧ ∃ l0, l = l0 ++ [10]) ∧
      ((takeLinesGo fuel b).2).data.count 10 = 0 := by
  induction fuel with
  | zero =>
    intro b hb
    have h0 : b.data.count 10 = 0 := Nat.le_zero.mp hb
    simp [takeLinesGo, h0]
  | succ fuel ih =>
    intro b hb
    cases hf : findNl b.data with
    | none =>
      have h10 : 10 ∉ b.data := (findNl_eq_none_iff _).mp hf
      have h0 : b.data.count 10 = 0 := List.count_eq_zero.mpr h10
      simp [takeLinesGo, LineBuf.readline, hf, h0]
    | some p =>
      obtain ⟨hp, htake, hmem⟩ := findNl_some_spec hf
      have hsplit : b.data.take (p + 1) ++ b.data.drop (p + 1) = b.data :=
        List.take_append_drop _ _
      have hcount_take : (b.data.take (p + 1)).count 10 = 1 := by
        rw [htake]
        simp [List.count_append, List.count_eq_zero.mpr hmem]
      have hcount : b.data.count 10 = 1 + (b.data.drop (p + 1)).count 10 := by
        have hc := congrArg (List.count 10) hsplit
        rw [List.count_append, hcount_take] at hc
        omega
      have hle : (b.data.drop (p + 1)).count 10 ≤ fuel := by omega
      have ihb := ih ⟨b.data.drop (p + 1), 0⟩ hle
      simp only [takeLinesGo, LineBuf.readline, hf]
      obtain ⟨ih1, ih2, ih3, ih4⟩ := ihb
      refine ⟨?_, ?_, ?_, ih4⟩
      · simpa [List.append_assoc, ih1] using hsplit
      · simp only [List.length_cons, ih2]
        omega
      · intro l hl
        rcases List.mem_cons.mp hl with h | h
        · subst h
          exact ⟨hcount_take, b.data.take p, htake⟩
        · exact ih3 l h

theorem takeLines_spec (b : LineBuf) :
    ((takeLines b).1).flatten ++ ((takeLines b).2).data = b.data ∧
    ((takeLines b).1).length = b.data.count 10 ∧
    (∀ l ∈ (takeLines b).1, l.count 10 = 1 ∧ ∃ l0, l = l0 ++ [10]) ∧
    ((takeLines b).2).data.count 10 = 0 :=
  takeLinesGo_spec _ b (List.count_le_length _ _)

theorem readline_of_no_newline {b : LineBuf} (h : 10 ∉ b.data) :
    LineBuf.readline b = (none, b) := by
  unfold LineBuf.readline
  rw [(findNl_eq_none_iff _).mpr h]

/-- A connected client of class Client. The field id is the socket file
descriptor (fileno), buf its LineBuf, received the trace of byte chunks
successfully delivered to the client socket by send, and closed records
whether Client.close ran on it. -/
structure Client where
  id : Nat
  buf : LineBuf
  received : List Bytes
  closed : Bool
deriving DecidableEq

def Client.init (i : Nat) : Client := ⟨i, LineBuf.init, [], false⟩

/-- Outcome of one sock.recv call, an oracle input: err is a raised
OSError, data d is a normal return (d empty means end of stream). -/
inductive RecvResult where
  | err
  | data (d : Bytes)
deriving DecidableEq

/-- A recv outcome that Client.read maps to None: an OSError or a
zero-length read. -/
def readFails : RecvResult → Bool
  | .err => true
  | .data d => d.isEmpty

/-- Client.read: an OSError is caught and yields None; an empty recv
yields None; otherwise the bytes are appended to the LineBuf via write
and returned. -/
def Client.read (c : Client) (r : RecvResult) : Option Bytes × Client :=
  match r with
  | .err => (none, c)
  | .data d =>
    if d.isEmpty then (none, c)
    else (some d, { c with buf := c.buf.write d })

/-- Client.write: sock.send inside try, an OSError is swallowed by the
except branch. The oracle sendOk tells whether the send succeeded; on
failure the client is unchanged and no error escapes. -/
def Client.write (c : Client) (sendOk : Bool) (d : Bytes) : Client :=
  if sendOk then { c with received := c.received ++ [d] } else c

/-- Client.close: sock.close. -/
def Client.close (c : Client) : Client := { c with closed := true }

/-- The Serial wrapper class. Field buf is its LineBuf, written is the
trace of byte strings passed to dev.write. -/
structure Serial where
  buf : LineBuf
  written : List Bytes
deriving DecidableEq

def Serial.init : Serial := ⟨LineBuf.init, []⟩

/-- Serial.write: dev.write of the bytes, recorded in the trace. -/
def Serial.write (s : Serial) (d : Bytes) : Serial :=
  { s with written := s.written ++ [d] }

/-- Serial.read: devData is what dev.read returned (oracle input). An
empty result yields None, otherwise the bytes go into the LineBuf via
write and are returned. -/
def Serial.read (s : Serial) (devData : Bytes) : Option Bytes × Serial :=
  if devData.isEmpty then (none, s)
  else (some devData, { s with buf := s.buf.write devData })

/-- Observable actions of one loop iteration, in program order. -/
inductive Event where
  | accept (i : Nat)
  | echo (s : String)
  | toClient (i : Nat) (d : Bytes)
  | toSerial (d : Bytes)
deriving DecidableEq

def Event.isToSerial : Event → Bool
  | .toSerial _ => true
  | _ => false

def Event.isToClient : Event → Bool
  | .toClient _ _ => true
  | _ => false

/-- The while loop of process_clients that forwards every complete line
of a client LineBuf to the serial device: while line := c.readline():
ser.write(line). Fuel as in takeLinesGo. -/
def drainLinesGo : Nat → LineBuf → Serial → LineBuf × Serial × List Event
  | 0, b, s => (b, s, [])
  | fuel + 1, b, s =>
    match LineBuf.readline b with
    | (none, b2) => (b2, s, [])
    | (some l, b2) =>
      let r := drainLinesGo fuel b2 (Serial.write s l)
      (r.1, r.2.1, Event.toSerial l :: r.2.2)

def drainLines (b : LineBuf) (s : Serial) : LineBuf × Serial × List Event :=
  drainLinesGo b.data.length b s

theorem drainLinesGo_eq (fuel : Nat) :
    ∀ (b : LineBuf) (s : Serial),
      drainLinesGo fuel b s =
        ((takeLinesGo fuel b).2,
         { s with written := s.written ++ (takeLinesGo fuel b).1 },
         (takeLinesGo fuel b).1.map Event.toSerial) := by
  induction fuel with
  | zero => intro b s; simp [drainLinesGo, takeLinesGo]
  | succ fuel ih =>
    intro b s
    cases hr : LineBuf.readline b with
    | mk o b2 =>
      cases o with
      | none => simp [drainLinesGo, takeLinesGo, hr]
      | some l =>
        simp only [drainLinesGo, takeLinesGo, hr, ih b2 (Serial.write s l)]
        simp [Serial.write, List.append_assoc]

theorem drainLines_eq (b : LineBuf) (s : Serial) :
    drainLines b s =
      ((takeLines b).2,
       { s with written := s.written ++ (takeLines b).1 },
       (takeLines b).1.map Event.toSerial) :=
  drainLinesGo_eq _ b s

/-- Output of process_serial: the string echoed to stdout, the updated
clients, the updated serial state and the emitted events. -/
structure PSOut where
  echo : String
  clients : List Client
  ser : Serial
  events : List Event
deriving DecidableEq

/-- process_serial: one serial read; if it returned None the attribute
access data.decode raises (error case); otherwise the bytes are decoded
(decode is the oracle for bytes.decode with utf-8 and backslashreplace,
a total function), echoed, and then written to every registered client
in order. -/
def process_serial (decode : Bytes → String) (clients : List Client)
    (ser : Serial) (devData : Bytes) (sendOk : Nat → Bool) :
    Except Unit PSOut :=
  match Serial.read ser devData with
  | (none, _) => Except.error ()
  | (some d, ser2) =>
    Except.ok ⟨decode d,
      clients.map (fun c => c.write (sendOk c.id) d),
      ser2,
      Event.echo (decode d) :: clients.map (fun c => Event.toClient c.id d)⟩

/-- Output of process_clients: the processed ready clients (in order),
the clients collected in remove_clients, the serial state and the
emitted events. -/
structure PCOut where
  clients : List Client
  removes : List Client
  ser : Serial
  events : List Event
deriving DecidableEq

/-- process_clients: for each ready client one read; a None read marks
the client for removal and continues; otherwise the while loop forwards
every complete line to the serial device. -/
def process_clients (ready : List (Client × RecvResult)) (ser : Serial) :
    PCOut :=
  match ready with
  | [] => ⟨[], [], ser, []⟩
  | (c, r) :: rest =>
    match Client.read c r with
    | (none, c2) =>
      let o := process_clients rest ser
      ⟨c2 :: o.clients, c2 :: o.removes, o.ser, o.events⟩
    | (some _, c2) =>
      let dr := drainLines c2.buf ser
      let c3 : Client := { c2 with buf := dr.1 }
      let o := process_clients rest dr.2.1
      ⟨c3 :: o.clients, o.removes, o.ser, dr.2.2 ++ o.events⟩

/-- The accept step of run: clients[sock.fileno()] = Client(sock, addr).
A dict assignment replaces in place if the key exists, else appends. -/
def addClient (clients : List Client) (newId : Nat) : List Client :=
  if clients.any (fun c => c.id == newId)
  then clients.map (fun c => if c.id == newId then Client.init newId else c)
  else clients ++ [Client.init newId]

/-- The removal step of run: del clients[c.fileno()]. A del on a missing
key raises KeyError, the error case here. No close call happens. -/
def registryRemove (clients : List Client) (i : Nat) :
    Except Unit (List Client) :=
  if clients.any (fun c => c.id == i)
  then Except.ok (clients.filter (fun c => !(c.id == i)))
  else Except.error ()

/-- The removal loop of run: for c in remove_clients: del clients[...]. -/
def removeAll (clients : List Client) : List Client → Except Unit (List Client)
  | [] => Except.ok clients
  | c :: rest =>
    match registryRemove clients c.id with
    | Except.error e => Except.error e
    | Except.ok cs2 => removeAll cs2 rest

/-- Oracle inputs of one iteration of the run loop: the readiness
reported by select for the listening socket, the serial device and the
client sockets, the fileno of a pending connection, what dev.read
returns, what each client recv returns, whether each client send
succeeds, and the decode oracle. -/
structure Iteration where
  acceptReady : Bool
  newId : Nat
  serialReady : Bool
  devData : Bytes
  readyIds : List Nat
  recv : Nat → RecvResult
  sendOk : Nat → Bool
  decode : Bytes → String

/-- Result of one iteration of the run loop. -/
structure IterOut where
  clients : List Client
  ser : Serial
  echo : String
  removed : List Client
  events : List Event

/-- Python mutates the ready Client objects in place; functionally, the
registry entries whose id occurs among the processed ready clients are
replaced by their processed versions. -/
def mergeProcessed (clients processed : List Client) : List Client :=
  clients.map (fun c =>
    match processed.find? (fun p => p.id == c.id) with
    | some p => p
    | none => c)

/-- One iteration of the run loop: accept at most one connection, then
process_serial if the serial device is ready, then process_clients on
the ready clients, then delete the clients marked for removal. -/
def runIter (clients : List Client) (ser : Serial) (it : Iteration) :
    Except Unit IterOut :=
  let cs1 := if it.acceptReady then addClient clients it.newId else clients
  let ev0 : List Event :=
    if it.acceptReady then [Event.accept it.newId] else []
  match (if it.serialReady
         then process_serial it.decode cs1 ser it.devData it.sendOk
         else Except.ok ⟨"", cs1, ser, []⟩) with
  | Except.error e => Except.error e
  | Except.ok ps =>
    let ready := (ps.clients.filter (fun c => it.readyIds.contains c.id)).map
        (fun c => (c, it.recv c.id))
    let pc := process_clients ready ps.ser
    let cs3 := mergeProcessed ps.clients pc.clients
    match removeAll cs3 pc.removes with
    | Except.error e => Except.error e
    | Except.ok cs4 =>
      Except.ok ⟨cs4, pc.ser, ps.echo, pc.removes, ev0 ++ ps.events ++ pc.events⟩

/-- A LineBuf write with the cursor at the end of the content appends. -/
theorem LineBuf.write_at_end (b : LineBuf) (d : Bytes)
    (h : b.pos = b.data.length) :
    b.write d = ⟨b.data ++ d, (b.data ++ d).length⟩ := by
  unfold LineBuf.write
  rw [h]
  congr 1
  · rw [List.take_length, List.drop_eq_nil_of_le (by simp), List.append_nil]
  · simp

/-- Appending a sequence of chunks to a fresh LineBuf. -/
def bufOfChunks (cs : List Bytes) : LineBuf :=
  cs.foldl LineBuf.write LineBuf.init

theorem foldl_write_from_end (cs : List Bytes) :
    ∀ l : Bytes, cs.foldl LineBuf.write ⟨l, l.length⟩ =
      ⟨l ++ cs.flatten, (l ++ cs.flatten).length⟩ := by
  induction cs with
  | nil => intro l; simp
  | cons c cs ih =>
    intro l
    have hw : LineBuf.write ⟨l, l.length⟩ c = ⟨l ++ c, (l ++ c).length⟩ :=
      LineBuf.write_at_end _ _ rfl
    simp only [List.foldl_cons, hw, ih (l ++ c), List.flatten_cons,
      List.append_assoc]

theorem bufOfChunks_eq (cs : List Bytes) :
    bufOfChunks cs = ⟨cs.flatten, cs.flatten.length⟩ := by
  have h := foldl_write_from_end cs []
  simpa [bufOfChunks, LineBuf.init] using h

/-- C2: for every sequence of chunks appended to a LineBuf whose
concatenation holds exactly k newline bytes, draining with readline
yields exactly k lines before a call returns none; the lines
concatenated with the remainder give back exactly the appended bytes
(no reordering, duplication or loss), every returned line ends in its
newline and holds exactly that one newline, and the next readline on
the remainder returns none, leaving the remainder owned by the
buffer. -/
theorem lineBuf_chunked_lines (cs : List Bytes) :
    ((takeLines (bufOfChunks cs)).1).length = cs.flatten.count 10 ∧
    ((takeLines (bufOfChunks cs)).1).flatten ++
        ((takeLines (bufOfChunks cs)).2).data = cs.flatten ∧
    (∀ l ∈ (takeLines (bufOfChunks cs)).1,
        l.count 10 = 1 ∧ ∃ l0, l = l0 ++ [10]) ∧
    LineBuf.readline ((takeLines (bufOfChunks cs)).2) =
      (none, (takeLines (bufOfChunks cs)).2) := by
  have hd : (bufOfChunks cs).data = cs.flatten := by rw [bufOfChunks_eq]
  have hs := takeLines_spec (bufOfChunks cs)
  refine ⟨by rw [← hd]; exact hs.2.1, by rw [← hd]; exact hs.1, hs.2.2.1, ?_⟩
  exact readline_of_no_newline (List.count_eq_zero.mp hs.2.2.2)

/-- C1: when the serial device yields a nonempty byte string S and every
send succeeds, process_serial delivers exactly S, verbatim, to every
registered client (each receives S appended once to its delivery trace,
with nothing else interleaved), echoes the decode of S to the console,
and writes nothing to the serial device. -/
theorem process_serial_broadcast (decode : Bytes → String)
    (clients : List Client) (ser : Serial) (d : Bytes) (sendOk : Nat → Bool)
    (hd : d ≠ []) (hok : ∀ i, sendOk i = true) :
    process_serial decode clients ser d sendOk =
      Except.ok ⟨decode d,
        clients.map (fun c => { c with received := c.received ++ [d] }),
        { ser with buf := ser.buf.write d },
        Event.echo (decode d) ::
          clients.map (fun c => Event.toClient c.id d)⟩ := by
  have hne : d.isEmpty = false := by
    cases d with
    | nil => exact absurd rfl hd
    | cons a as => rfl
  have hmap : ∀ c : Client,
      Client.write c (sendOk c.id) d = { c with received := c.received ++ [d] } := by
    intro c
    unfold Client.write
    rw [hok c.id]
    simp
  simp [process_serial, Serial.read, hne, hmap]

theorem process_serial_broadcast_witness :
    process_serial (fun _ => "pong") [Client.init 0] Serial.init [112, 10]
        (fun _ => true) =
      Except.ok ⟨"pong",
        [{ Client.init 0 with received := [[112, 10]] }],
        { Serial.init with buf := Serial.init.buf.write [112, 10] },
        [Event.echo "pong", Event.toClient 0 [112, 10]]⟩ :=
  process_serial_broadcast (fun _ => "pong") [Client.init 0] Serial.init
    [112, 10] (fun _ => true) (by decide) (fun _ => rfl)

/-- C9: if dev.read yields no bytes, Serial.read returns None and
process_serial hits the decode of None, which raises (the error case);
for every nonempty read the call succeeds, so under the nonempty-read
precondition the error branch is unreachable. -/
theorem serial_none_read_raises (decode : Bytes → String)
    (clients : List Client) (ser : Serial) (sendOk : Nat → Bool) :
    Serial.read ser [] = (none, ser) ∧
    process_serial decode clients ser [] sendOk = Except.error () ∧
    ∀ d : Bytes, d ≠ [] →
      ∃ out, process_serial decode clients ser d sendOk = Except.ok out := by
  refine ⟨rfl, rfl, ?_⟩
  intro d hd
  have hne : d.isEmpty = false := by
    cases d with
    | nil => exact absurd rfl hd
    | cons a as => rfl
  refine ⟨⟨decode d, clients.map (fun c => c.write (sendOk c.id) d),
    { ser with buf := ser.buf.write d },
    Event.echo (decode d) :: clients.map (fun c => Event.toClient c.id d)⟩, ?_⟩
  simp [process_serial, Serial.read, hne]

theorem serial_none_read_raises_witness :
    ∃ out, process_serial (fun _ => "") ([] : List Client) Serial.init [1]
      (fun _ => true) = Except.ok out :=
  (serial_none_read_raises (fun _ => "") [] Serial.init (fun _ => true)).2.2
    [1] (by decide)

theorem process_clients_removes (ready : List (Client × RecvResult))
    (ser : Serial) :
    (process_clients ready ser).removes =
      (ready.filter (fun p => readFails p.2)).map Prod.fst := by
  induction ready generalizing ser with
  | nil => simp [process_clients]
  | cons p rest ih =>
    obtain ⟨c, r⟩ := p
    cases r with
    | err => simp [process_clients, Client.read, readFails, ih]
    | data d =>
      cases hd : d.isEmpty with
      | true => simp [process_clients, Client.read, readFails, hd, ih]
      | false => simp [process_clients, Client.read, readFails, hd, ih]

/-- C6: a client read error (OSError) or zero-length read never escapes:
exactly the clients whose recv failed are marked for removal (nothing
else happens to them, Client.read returns them unchanged), and a failed
send is swallowed by Client.write, which returns the client unchanged
instead of raising. All three operations are total, so no client error
terminates the loop. -/
theorem client_error_isolated (ready : List (Client × RecvResult))
    (ser : Serial) :
    (process_clients ready ser).removes =
      (ready.filter (fun p => readFails p.2)).map Prod.fst ∧
    (∀ (c : Client) (r : RecvResult), readFails r = true →
      Client.read c r = (none, c)) ∧
    (∀ (c : Client) (d : Bytes), Client.write c false d = c) := by
  refine ⟨process_clients_removes ready ser, ?_, ?_⟩
  · intro c r hr
    cases r with
    | err => rfl
    | data d =>
      have hd : d.isEmpty = true := hr
      simp [Client.read, hd]
  · intro c d
    rfl

theorem client_error_isolated_witness :
    Client.read (Client.init 0) RecvResult.err = (none, Client.init 0) :=
  (client_error_isolated [] Serial.init).2.1 (Client.init 0) RecvResult.err rfl

/-- C4 counterexample: the removal operation of the registry is the
statement del clients[fd]; removing an identifier that is not present
raises KeyError (the error case), so removal of an already-removed
identifier is not a no-op. -/
theorem registry_remove_absent_raises_cex :
    registryRemove ([] : List Client) 0 = Except.error () := rfl

/-- C4 amended: removing a present identifier deletes its entry;
removing an absent (already removed) identifier raises KeyError instead
of being a no-op. -/
theorem registry_remove_cases (clients : List Client) (i : Nat) :
    ((∃ c ∈ clients, c.id = i) →
      registryRemove clients i =
        Except.ok (clients.filter (fun c => !(c.id == i)))) ∧
    ((∀ c ∈ clients, c.id ≠ i) →
      registryRemove clients i = Except.error ()) := by
  constructor
  · intro h
    obtain ⟨c, hc, hci⟩ := h
    have hany : clients.any (fun c => c.id == i) = true :=
      List.any_eq_true.mpr ⟨c, hc, by simp [hci]⟩
    simp [registryRemove, hany]
  · intro h
    have hany : clients.any (fun c => c.id == i) = false := by
      rw [List.any_eq_false]
      intro c hc
      simp [h c hc]
    simp [registryRemove, hany]

theorem registry_remove_cases_witness :
    registryRemove [Client.init 3] 3 = Except.ok [] := by
  rw [(registry_remove_cases [Client.init 3] 3).1
    ⟨Client.init 3, List.mem_cons_self _ _, rfl⟩]
  rfl

theorem findNl_append_of_none {a : Bytes} (h : findNl a = none) (b : Bytes) :
    findNl (a ++ b) = (findNl b).map (· + a.length) := by
  induction a with
  | nil =>
    simp only [List.nil_append, List.length_nil]
    cases findNl b <;> simp
  | cons x xs ih =>
    have hx : ¬ x = 10 := by
      intro hx
      subst hx
      simp [findNl] at h
    have hxs : findNl xs = none := by
      unfold findNl at h
      rw [if_neg hx] at h
      cases hq : findNl xs with
      | none => rfl
      | some q => rw [hq] at h; simp at h
    have hcons : ∀ (y : Nat) (ys : List Nat),
        findNl (y :: ys) = if y = 10 then some 0 else (findNl ys).map (· + 1) :=
      fun y ys => rfl
    simp only [List.cons_append]
    rw [hcons, if_neg hx, ih hxs]
    cases hfb : findNl b with
    | none => simp
    | some p =>
      simp only [Option.map_some', List.length_cons, Option.some.injEq]
      omega

theorem takeLinesGo_no_newline (fuel : Nat) {b : LineBuf}
    (h : 10 ∉ b.data) : takeLinesGo fuel b = ([], b) := by
  cases fuel with
  | zero => rfl
  | succ fuel => simp [takeLinesGo, readline_of_no_newline h]

theorem takeLines_no_newline (b : LineBuf) (h : 10 ∉ b.data) :
    takeLines b = ([], b) :=
  takeLinesGo_no_newline _ h

theorem takeLines_single {D : Bytes} {q : Nat} (h : findNl D = some q)
    (hq : q + 1 = D.length) (pos : Nat) :
    takeLines ⟨D, pos⟩ = ([D], ⟨[], 0⟩) := by
  have hstep : LineBuf.readline ⟨D, pos⟩ = (some D, ⟨[], 0⟩) := by
    unfold LineBuf.readline
    simp only [h]
    rw [hq]
    simp
  show takeLinesGo D.length ⟨D, pos⟩ = ([D], ⟨[], 0⟩)
  rw [← hq]
  simp only [takeLinesGo, hstep]
  rw [takeLinesGo_no_newline q (by simp)]

/-- C7: a client with an empty buffer whose line arrives split over two
separate socket reads (a first chunk with no newline, then a second
chunk ending in the only newline) causes exactly one write of the whole
line to the serial device: the first read forwards nothing and removes
nothing, and the second read forwards the line exactly once. -/
theorem split_line_single_forward (c : Client) (ser : Serial)
    (d1 d2a : Bytes) (hbuf : c.buf = LineBuf.init) (hne : d1 ≠ [])
    (h1 : findNl d1 = none) (h2 : findNl d2a = none) :
    ∃ c1 : Client,
      process_clients [(c, RecvResult.data d1)] ser = ⟨[c1], [], ser, []⟩ ∧
      process_clients [(c1, RecvResult.data (d2a ++ [10]))] ser =
        ⟨[{ c1 with buf := ⟨[], 0⟩ }], [],
         Serial.write ser (d1 ++ (d2a ++ [10])),
         [Event.toSerial (d1 ++ (d2a ++ [10]))]⟩ := by
  have hne1 : d1.isEmpty = false := by
    cases d1 with
    | nil => exact absurd rfl hne
    | cons a as => rfl
  refine ⟨{ c with buf := ⟨d1, d1.length⟩ }, ?_, ?_⟩
  · have hw : c.buf.write d1 = ⟨d1, d1.length⟩ := by
      rw [hbuf]
      simp [LineBuf.write, LineBuf.init]
    have hdr : drainLines ⟨d1, d1.length⟩ ser = (⟨d1, d1.length⟩, ser, []) := by
      rw [drainLines_eq,
        takeLines_no_newline ⟨d1, d1.length⟩ ((findNl_eq_none_iff _).mp h1)]
      simp
    simp [process_clients, Client.read, hne1, hw, hdr]
  · have hne2 : (d2a ++ [10]).isEmpty = false := by simp
    have hw2 : (⟨d1, d1.length⟩ : LineBuf).write (d2a ++ [10]) =
        ⟨d1 ++ (d2a ++ [10]), (d1 ++ (d2a ++ [10])).length⟩ := by
      unfold LineBuf.write
      congr 1
      · rw [List.take_length, List.drop_eq_nil_of_le (by simp), List.append_nil]
      · simp
    have hfind : findNl (d1 ++ (d2a ++ [10])) = some (d2a.length + d1.length) := by
      rw [findNl_append_of_none h1, findNl_append_of_none h2]
      simp [findNl]
    have hq : (d2a.length + d1.length) + 1 = (d1 ++ (d2a ++ [10])).length := by
      simp [List.length_append]
      omega
    have hdr2 : ∀ pos : Nat, drainLines ⟨d1 ++ (d2a ++ [10]), pos⟩ ser =
        (⟨[], 0⟩, Serial.write ser (d1 ++ (d2a ++ [10])),
         [Event.toSerial (d1 ++ (d2a ++ [10]))]) := by
      intro pos
      rw [drainLines_eq, takeLines_single hfind hq pos]
      rfl
    simp [process_clients, Client.read, hne2, hw2, hdr2]

theorem split_line_single_forward_witness :
    ∃ c1 : Client,
      process_clients [(Client.init 0, RecvResult.data [65, 84, 13])]
          Serial.init = ⟨[c1], [], Serial.init, []⟩ ∧
      process_clients [(c1, RecvResult.data ([] ++ [10]))] Serial.init =
        ⟨[{ c1 with buf := ⟨[], 0⟩ }], [],
         Serial.write Serial.init ([65, 84, 13] ++ ([] ++ [10])),
         [Event.toSerial ([65, 84, 13] ++ ([] ++ [10]))]⟩ :=
  split_line_single_forward (Client.init 0) Serial.init [65, 84, 13] []
    rfl (by decide) rfl rfl

/-- C8: a registered client whose socket reports ready but whose recv
fails (error or end of stream) while its LineBuf still holds partial,
unterminated bytes causes no write to the serial device at all; the
iteration removes the client, discarding the registry entry together
with its buffer. -/
theorem disconnect_discards_buffer (c : Client) (ser : Serial)
    (it : Iteration) (hacc : it.acceptReady = false)
    (hser : it.serialReady = false) (hready : it.readyIds = [c.id])
    (hrecv : readFails (it.recv c.id) = true) (hdata : c.buf.data ≠ [])
    (hnl : findNl c.buf.data = none) :
    runIter [c] ser it = Except.ok ⟨[], ser, "", [c], []⟩ := by
  have hread : Client.read c (it.recv c.id) = (none, c) := by
    cases hr : it.recv c.id with
    | err => rfl
    | data d =>
      rw [hr] at hrecv
      simp only [readFails] at hrecv
      simp [Client.read, hrecv]
  simp [runIter, hacc, hser, hready, hread, process_clients,
    mergeProcessed, removeAll, registryRemove]

theorem disconnect_discards_buffer_witness :
    runIter [⟨2, ⟨[65], 1⟩, [], false⟩] Serial.init
        ⟨false, 0, false, [], [2], fun _ => RecvResult.err, fun _ => true,
         fun _ => ""⟩ =
      Except.ok ⟨[], Serial.init, "", [⟨2, ⟨[65], 1⟩, [], false⟩], []⟩ :=
  disconnect_discards_buffer ⟨2, ⟨[65], 1⟩, [], false⟩ Serial.init
    ⟨false, 0, false, [], [2], fun _ => RecvResult.err, fun _ => true,
     fun _ => ""⟩ rfl rfl rfl rfl (by decide) rfl

theorem Client.write_id (c : Client) (ok : Bool) (d : Bytes) :
    (Client.write c ok d).id = c.id := by
  unfold Client.write
  split <;> rfl

theorem Client.write_buf (c : Client) (ok : Bool) (d : Bytes) :
    (Client.write c ok d).buf = c.buf := by
  unfold Client.write
  split <;> rfl

theorem Client.write_closed (c : Client) (ok : Bool) (d : Bytes) :
    (Client.write c ok d).closed = c.closed := by
  unfold Client.write
  split <;> rfl

/-- Destructuring of a successful run-loop iteration into its stages. -/
theorem runIter_ok_cases {clients : List Client} {ser : Serial}
    {it : Iteration} {out : IterOut}
    (h : runIter clients ser it = Except.ok out) :
    ∃ (ps : PSOut) (cs4 : List Client),
      (if it.serialReady
       then process_serial it.decode
         (if it.acceptReady then addClient clients it.newId else clients)
         ser it.devData it.sendOk
       else Except.ok ⟨"",
         (if it.acceptReady then addClient clients it.newId else clients),
         ser, []⟩) = Except.ok ps ∧
      removeAll
        (mergeProcessed ps.clients
          (process_clients
            ((ps.clients.filter (fun c => it.readyIds.contains c.id)).map
              (fun c => (c, it.recv c.id))) ps.ser).clients)
        (process_clients
          ((ps.clients.filter (fun c => it.readyIds.contains c.id)).map
            (fun c => (c, it.recv c.id))) ps.ser).removes = Except.ok cs4 ∧
      out = ⟨cs4,
        (process_clients
          ((ps.clients.filter (fun c => it.readyIds.contains c.id)).map
            (fun c => (c, it.recv c.id))) ps.ser).ser,
        ps.echo,
        (process_clients
          ((ps.clients.filter (fun c => it.readyIds.contains c.id)).map
            (fun c => (c, it.recv c.id))) ps.ser).removes,
        (if it.acceptReady then [Event.accept it.newId] else []) ++
          ps.events ++
          (process_clients
            ((ps.clients.filter (fun c => it.readyIds.contains c.id)).map
              (fun c => (c, it.recv c.id))) ps.ser).events⟩ := by
  simp only [runIter] at h
  split at h
  · exact absurd h (by simp)
  · next ps hps =>
    split at h
    · exact absurd h (by simp)
    · next cs4 hcs4 =>
      refine ⟨ps, cs4, hps, hcs4, ?_⟩
      injection h with h
      exact h.symm

/-- Shape of a successful process_serial call: the clients are exactly
the write images and the events are the echo followed by the per-client
broadcast writes (in particular no serial write occurs). -/
theorem process_serial_ok_shape {decode : Bytes → String}
    {cs : List Client} {ser : Serial} {d : Bytes} {so : Nat → Bool}
    {ps : PSOut} (h : process_serial decode cs ser d so = Except.ok ps) :
    ps.clients = cs.map (fun c => Client.write c (so c.id) d) ∧
    ∀ e ∈ ps.events, e.isToSerial = false := by
  unfold process_serial at h
  split at h
  · exact absurd h (by simp)
  · next d2 ser2 heq =>
    have hd2 : d2 = d := by
      unfold Serial.read at heq
      split at heq
      · exact absurd heq (by simp)
      · injection heq with h1 h2
        injection h1 with h1
        exact h1.symm
    subst hd2
    injection h with h
    subst h
    refine ⟨rfl, ?_⟩
    intro e he
    rcases List.mem_cons.mp he with h1 | h1
    · subst h1; rfl
    · obtain ⟨c, hc, hce⟩ := List.mem_map.mp h1
      rw [← hce]
      rfl

theorem process_clients_events_no_toClient
    (ready : List (Client × RecvResult)) (ser : Serial) :
    ∀ e ∈ (process_clients ready ser).events, e.isToClient = false := by
  induction ready generalizing ser with
  | nil => intro e he; simp [process_clients] at he
  | cons p rest ih =>
    obtain ⟨c, r⟩ := p
    intro e he
    cases hr : Client.read c r with
    | mk o c2 =>
      cases o with
      | none =>
        simp only [process_clients, hr] at he
        exact ih ser e he
      | some d =>
        simp only [process_clients, hr] at he
        rcases List.mem_append.mp he with h1 | h1
        · simp only [drainLines_eq] at h1
          obtain ⟨l, hl, hle⟩ := List.mem_map.mp h1
          rw [← hle]
          rfl
        · exact ih _ e h1

theorem mem_addClient {cs : List Client} {n : Nat} {x : Client}
    (hx : x ∈ addClient cs n) : x ∈ cs ∨ x = Client.init n := by
  unfold addClient at hx
  split at hx
  · obtain ⟨c, hc, hce⟩ := List.mem_map.mp hx
    by_cases hb : (c.id == n) = true
    · rw [if_pos hb] at hce
      right
      exact hce.symm
    · rw [if_neg hb] at hce
      left
      rw [← hce]
      exact hc
  · rcases List.mem_append.mp hx with h1 | h1
    · left; exact h1
    · right; simpa using h1

theorem addClient_id {cs : List Client} {i n : Nat}
    (h : ∃ c ∈ cs, c.id = i) : ∃ c ∈ addClient cs n, c.id = i := by
  obtain ⟨c, hc, hci⟩ := h
  unfold addClient
  split
  · refine ⟨if c.id == n then Client.init n else c,
      List.mem_map_of_mem _ hc, ?_⟩
    by_cases hb : (c.id == n) = true
    · rw [if_pos hb]
      have : c.id = n := by simpa using hb
      rw [← this, hci] at *
      simp [Client.init, ← hci, this]
    · rw [if_neg hb]
      exact hci
  · exact ⟨c, List.mem_append_left _ hc, hci⟩

theorem mergeProcessed_mem {cs pr : List Client} {x : Client}
    (hx : x ∈ mergeProcessed cs pr) : x ∈ cs ∨ x ∈ pr := by
  unfold mergeProcessed at hx
  obtain ⟨c, hc, hce⟩ := List.mem_map.mp hx
  cases hf : pr.find? (fun p => p.id == c.id) with
  | none =>
    rw [hf] at hce
    left
    rw [← hce]
    exact hc
  | some p =>
    rw [hf] at hce
    right
    rw [← hce]
    exact List.mem_of_find?_eq_some hf

theorem mergeProcessed_id {cs : List Client} (pr : List Client) {i : Nat}
    (h : ∃ c ∈ cs, c.id = i) : ∃ x ∈ mergeProcessed cs pr, x.id = i := by
  obtain ⟨c, hc, hci⟩ := h
  unfold mergeProcessed
  refine ⟨_, List.mem_map_of_mem _ hc, ?_⟩
  cases hf : pr.find? (fun q => q.id == c.id) with
  | none => exact hci
  | some q =>
    have hqe : q.id = c.id := by simpa using List.find?_some hf
    rw [hqe]
    exact hci

theorem registryRemove_ok_eq {cs cs2 : List Client} {i : Nat}
    (h : registryRemove cs i = Except.ok cs2) :
    cs2 = cs.filter (fun c => !(c.id == i)) := by
  unfold registryRemove at h
  split at h
  · injection h with h
    exact h.symm
  · exact absurd h (by simp)

theorem removeAll_ok_subset :
    ∀ (rem cs cs4 : List Client), removeAll cs rem = Except.ok cs4 →
      ∀ x ∈ cs4, x ∈ cs := by
  intro rem
  induction rem with
  | nil =>
    intro cs cs4 h x hx
    simp only [removeAll] at h
    injection h with h
    rw [h]
    exact hx
  | cons y rest ih =>
    intro cs cs4 h x hx
    simp only [removeAll] at h
    split at h
    · exact absurd h (by simp)
    · next cs2 heq =>
      have h2 := ih cs2 cs4 h x hx
      rw [registryRemove_ok_eq heq] at h2
      exact List.mem_of_mem_filter h2

theorem removeAll_ok_keep :
    ∀ (rem cs cs4 : List Client), removeAll cs rem = Except.ok cs4 →
      ∀ x ∈ cs, (∀ y ∈ rem, ¬(y.id = x.id)) → x ∈ cs4 := by
  intro rem
  induction rem with
  | nil =>
    intro cs cs4 h x hx _
    simp only [removeAll] at h
    injection h with h
    rw [← h]
    exact hx
  | cons y rest ih =>
    intro cs cs4 h x hx hy
    simp only [removeAll] at h
    split at h
    · exact absurd h (by simp)
    · next cs2 heq =>
      refine ih cs2 cs4 h x ?_ ?_
      · rw [registryRemove_ok_eq heq]
        refine List.mem_filter.mpr ⟨hx, ?_⟩
        have : ¬(y.id = x.id) := hy y (List.mem_cons_self _ _)
        simp only [Bool.not_eq_eq_eq_not, Bool.not_true, beq_eq_false_iff_ne,
          ne_eq]
        intro hc
        exact this hc.symm
      · intro z hz
        exact hy z (List.mem_cons_of_mem _ hz)

/-- C5: within one successful loop iteration in which the serial device
is ready, the event trace splits into a first part free of serial
writes (the accept and the serial-to-clients broadcast) followed by a
part free of client writes (the client lines forwarded to serial): every
broadcast write precedes every forwarded line. -/
theorem broadcast_before_forward (clients : List Client) (ser : Serial)
    (it : Iteration) (out : IterOut) (hsr : it.serialReady = true)
    (h : runIter clients ser it = Except.ok out) :
    ∃ t1 t2, out.events = t1 ++ t2 ∧
      (∀ e ∈ t1, e.isToSerial = false) ∧
      (∀ e ∈ t2, e.isToClient = false) := by
  obtain ⟨ps, cs4, hps, hrm, hout⟩ := runIter_ok_cases h
  refine ⟨(if it.acceptReady then [Event.accept it.newId] else []) ++ ps.events,
    (process_clients
      ((ps.clients.filter (fun c => it.readyIds.contains c.id)).map
        (fun c => (c, it.recv c.id))) ps.ser).events, ?_, ?_, ?_⟩
  · rw [hout]
  · intro e he
    rcases List.mem_append.mp he with h1 | h1
    · cases hacc : it.acceptReady
      · rw [hacc] at h1
        simp at h1
      · rw [hacc] at h1
        simp at h1
        subst h1
        rfl
    · rw [hsr, if_pos rfl] at hps
      exact (process_serial_ok_shape hps).2 e h1
  · exact process_clients_events_no_toClient _ _

theorem broadcast_before_forward_witness :
    ∃ t1 t2,
      (IterOut.mk [⟨1, ⟨[], 0⟩, [[112, 10]], false⟩]
        ⟨⟨[112, 10], 2⟩, [[65, 10]]⟩ "p" []
        [Event.echo "p", Event.toClient 1 [112, 10],
         Event.toSerial [65, 10]]).events = t1 ++ t2 ∧
      (∀ e ∈ t1, e.isToSerial = false) ∧
      (∀ e ∈ t2, e.isToClient = false) :=
  broadcast_before_forward [Client.init 1] Serial.init
    ⟨false, 0, true, [112, 10], [1], fun _ => RecvResult.data [65, 10],
     fun _ => true, fun _ => "p"⟩
    ⟨[⟨1, ⟨[], 0⟩, [[112, 10]], false⟩], ⟨⟨[112, 10], 2⟩, [[65, 10]]⟩, "p", [],
     [Event.echo "p", Event.toClient 1 [112, 10], Event.toSerial [65, 10]]⟩
    rfl rfl

theorem process_clients_mem_clients (ready : List (Client × RecvResult))
    (ser : Serial) :
    ∀ x ∈ (process_clients ready ser).clients,
      (∃ p ∈ ready, x = p.1) ∨ findNl x.buf.data = none := by
  induction ready generalizing ser with
  | nil => intro x hx; simp [process_clients] at hx
  | cons p rest ih =>
    obtain ⟨c, r⟩ := p
    intro x hx
    cases hr : Client.read c r with
    | mk o c2 =>
      cases o with
      | none =>
        have hc2 : c2 = c := by
          cases r with
          | err =>
            injection hr with h1 h2
            exact h2.symm
          | data d =>
            simp only [Client.read] at hr
            by_cases hde : d.isEmpty = true
            · rw [if_pos hde] at hr
              injection hr with h1 h2
              exact h2.symm
            · rw [if_neg hde] at hr
              exact absurd hr (by simp)
        simp only [process_clients, hr] at hx
        rcases List.mem_cons.mp hx with h1 | h1
        · subst h1
          exact Or.inl ⟨(c, r), List.mem_cons_self _ _, hc2⟩
        · rcases ih ser x h1 with ⟨q, hq, hxq⟩ | hnone
          · exact Or.inl ⟨q, List.mem_cons_of_mem _ hq, hxq⟩
          · exact Or.inr hnone
      | some d =>
        simp only [process_clients, hr] at hx
        rcases List.mem_cons.mp hx with h1 | h1
        · subst h1
          right
          show findNl (drainLines c2.buf ser).1.data = none
          rw [drainLines_eq]
          exact (findNl_eq_none_iff _).mpr
            (List.count_eq_zero.mp (takeLines_spec c2.buf).2.2.2)
        · rcases ih _ x h1 with ⟨q, hq, hxq⟩ | hnone
          · exact Or.inl ⟨q, List.mem_cons_of_mem _ hq, hxq⟩
          · exact Or.inr hnone

/-- C10: the run loop preserves the invariant that no registered client
LineBuf holds a newline byte: if it holds at the start of an iteration,
it holds for every registered client after the iteration, because every
ready client is drained until readline returns none and new clients
start with an empty buffer. -/
theorem no_newline_invariant (clients : List Client) (ser : Serial)
    (it : Iteration) (out : IterOut)
    (hinv : ∀ c ∈ clients, findNl c.buf.data = none)
    (h : runIter clients ser it = Except.ok out) :
    ∀ c ∈ out.clients, findNl c.buf.data = none := by
  obtain ⟨ps, cs4, hps, hrm, hout⟩ := runIter_ok_cases h
  have hinv1 : ∀ c ∈ (if it.acceptReady then addClient clients it.newId
      else clients), findNl c.buf.data = none := by
    intro c hc
    cases hacc : it.acceptReady
    · rw [hacc, if_neg (by simp)] at hc
      exact hinv c hc
    · rw [hacc, if_pos rfl] at hc
      rcases mem_addClient hc with h1 | h1
      · exact hinv c h1
      · subst h1
        rfl
  have hinv2 : ∀ c ∈ ps.clients, findNl c.buf.data = none := by
    cases hsr : it.serialReady
    · rw [hsr, if_neg (by simp)] at hps
      injection hps with hps
      rw [← hps]
      exact hinv1
    · rw [hsr, if_pos rfl] at hps
      intro x hx
      rw [(process_serial_ok_shape hps).1] at hx
      obtain ⟨c, hc, hce⟩ := List.mem_map.mp hx
      rw [← hce, Client.write_buf]
      exact hinv1 c hc
  intro x hx
  rw [hout] at hx
  have hx3 := removeAll_ok_subset _ _ _ hrm x hx
  rcases mergeProcessed_mem hx3 with h1 | h1
  · exact hinv2 x h1
  · rcases process_clients_mem_clients _ _ x h1 with ⟨q, hq, hxq⟩ | hnone
    · obtain ⟨c, hc, hce⟩ := List.mem_map.mp hq
      rw [hxq, ← hce]
      exact hinv2 c (List.mem_of_mem_filter hc)
    · exact hnone

theorem no_newline_invariant_witness :
    findNl (Client.init 1).buf.data = none :=
  no_newline_invariant [Client.init 1] Serial.init
    ⟨false, 0, false, [], [], fun _ => RecvResult.err, fun _ => true,
     fun _ => ""⟩ ⟨[Client.init 1], Serial.init, "", [], []⟩
    (by
      intro c hc
      simp at hc
      subst hc
      rfl)
    rfl (Client.init 1) (List.mem_cons_self _ _)

/-- C3 counterexample: an iteration in which the single registered
client errors on read removes it from the registry, yet the removed
client record still has closed = false: the removal step (del on the
dict) never invokes Client.close, so removal does not close the
socket. -/
theorem removal_does_not_close_cex :
    runIter [Client.init 5] Serial.init
        ⟨false, 0, false, [], [5], fun _ => RecvResult.err, fun _ => true,
         fun _ => ""⟩ =
      Except.ok ⟨[], Serial.init, "", [Client.init 5], []⟩ ∧
    (Client.init 5).closed = false :=
  ⟨rfl, rfl⟩

/-- C3 amended: removal is the only way an identifier disappears from
the registry within an iteration (an identifier present before and
absent after must belong to a removed client), but removal does not
release the socket: no client close ever runs, so every removed client
still has closed = false whenever all registered clients did. -/
theorem registry_removal_semantics (clients : List Client) (ser : Serial)
    (it : Iteration) (out : IterOut)
    (h : runIter clients ser it = Except.ok out) :
    (∀ i : Nat, (∃ c ∈ clients, c.id = i) →
      (∀ c ∈ out.clients, c.id ≠ i) → ∃ c ∈ out.removed, c.id = i) ∧
    ((∀ c ∈ clients, c.closed = false) →
      ∀ c ∈ out.removed, c.closed = false) := by
  obtain ⟨ps, cs4, hps, hrm, hout⟩ := runIter_ok_cases h
  have hcs1 : ∀ i : Nat, (∃ c ∈ clients, c.id = i) →
      ∃ c ∈ (if it.acceptReady then addClient clients it.newId else clients),
        c.id = i := by
    intro i hi
    cases hacc : it.acceptReady
    · simpa [hacc] using hi
    · simpa [hacc] using addClient_id hi
  have hps_id : ∀ i : Nat, (∃ c ∈ clients, c.id = i) →
      ∃ c ∈ ps.clients, c.id = i := by
    intro i hi
    obtain ⟨c, hc, hci⟩ := hcs1 i hi
    cases hsr : it.serialReady
    · rw [hsr, if_neg (by simp)] at hps
      injection hps with hps
      rw [← hps]
      exact ⟨c, hc, hci⟩
    · rw [hsr, if_pos rfl] at hps
      rw [(process_serial_ok_shape hps).1]
      exact ⟨_, List.mem_map_of_mem _ hc, by rw [Client.write_id]; exact hci⟩
  have hcl1 : (∀ c ∈ clients, c.closed = false) →
      ∀ c ∈ (if it.acceptReady then addClient clients it.newId else clients),
        c.closed = false := by
    intro hcl c hc
    cases hacc : it.acceptReady
    · rw [hacc, if_neg (by simp)] at hc
      exact hcl c hc
    · rw [hacc, if_pos rfl] at hc
      rcases mem_addClient hc with h1 | h1
      · exact hcl c h1
      · subst h1
        rfl
  have hcl2 : (∀ c ∈ clients, c.closed = false) →
      ∀ c ∈ ps.clients, c.closed = false := by
    intro hcl x hx
    cases hsr : it.serialReady
    · rw [hsr, if_neg (by simp)] at hps
      injection hps with hps
      rw [← hps] at hx
      exact hcl1 hcl x hx
    · rw [hsr, if_pos rfl] at hps
      rw [(process_serial_ok_shape hps).1] at hx
      obtain ⟨c, hc, hce⟩ := List.mem_map.mp hx
      rw [← hce, Client.write_closed]
      exact hcl1 hcl c hc
  constructor
  · intro i hi hgone
    obtain ⟨x, hx, hxi⟩ := mergeProcessed_id
      (process_clients
        ((ps.clients.filter (fun c => it.readyIds.contains c.id)).map
          (fun c => (c, it.recv c.id))) ps.ser).clients (hps_id i hi)
    by_contra hno
    push_neg at hno
    have hkeep := removeAll_ok_keep _ _ _ hrm x hx ?_
    · rw [hout] at hgone
      exact hgone x hkeep hxi
    · intro y hy
      rw [hout] at hno
      intro hyx
      exact hno y hy (by rw [hyx]; exact hxi)
  · intro hcl c hc
    rw [hout] at hc
    rw [process_clients_removes] at hc
    obtain ⟨q, hq, hqe⟩ := List.mem_map.mp hc
    have hq1 := List.mem_of_mem_filter hq
    obtain ⟨c0, hc0, hc0e⟩ := List.mem_map.mp hq1
    rw [← hqe, ← hc0e]
    exact hcl2 hcl c0 (List.mem_of_mem_filter hc0)

theorem registry_removal_semantics_witness :
    ∃ c ∈ (IterOut.mk [] Serial.init "" [Client.init 5] []).removed,
      c.id = 5 :=
  (registry_removal_semantics [Client.init 5] Serial.init
    ⟨false, 0, false, [], [5], fun _ => RecvResult.err, fun _ => true,
     fun _ => ""⟩ ⟨[], Serial.init, "", [Client.init 5], []⟩ rfl).1 5
    ⟨Client.init 5, List.mem_cons_self _ _, rfl⟩
    (by intro c hc; simp at hc)

end SerialLogger
